import Mathlib

/-!
Verification of the Playback Controller of the Speech-to-Indian-Sign-Language
frontend, a shallow embedding of `src/frontend/src/components/SignDisplay.jsx`.

The component keeps three pieces of React state (lines 14-16): `currentIndex`,
`isPlaying` and `speed`, over the sign sequence `signs = data?.signs || []`
(line 19).  The user commands `play`, `pause`, `goToSign` (seek), `nextSign`,
`prevSign`, `replay` and the speed selector are embedded as pure functions on a
`PlaybackState` record; the `setInterval`/`setTimeout` machinery of the three
`useEffect` hooks (lines 55-75) is embedded as a step function on a
`TimedState` that tracks the pending interval and the two one-shot timeouts
(auto-start after a load, deferred play after a replay) with explicit
millisecond countdowns.
-/

/-- One element of the `signs` array the backend delivers to the frontend.
The component reads the fields `type` (one of the strings `"word"`,
`"letter"`, `"space"`), `label`, `original` and `image_url`
(SignDisplay.jsx lines 110-126, 148). -/
structure SignToken where
  type : String
  label : String
  original : String
  image_url : Option String
deriving DecidableEq

/-- The React state of `SignDisplay` (lines 14-16) together with the sign
sequence of the currently displayed result (line 19): `currentIndex`,
`isPlaying`, `speed` (the spec calls it `speedMs`), and
`signs = data?.signs || []`. -/
structure PlaybackState where
  signs : List SignToken
  currentIndex : Nat
  isPlaying : Bool
  speed : Nat
deriving DecidableEq

/-- The JS test `signs[i].type === 'space'`.  An out-of-range read yields
`undefined` in JS, whose `.type` access would throw; this total model returns
`false` there.  Every theorem below keeps the scanned indices in bounds, where
the model and the source agree. -/
def spaceAt (signs : List SignToken) (i : Nat) : Bool :=
  match signs.get? i with
  | some s => s.type == "space"
  | none => false

/-- Count of visual signs: the entries whose `type` is not `"space"`.  The
spec calls this `totalSigns` ("the count of visual (non-`Space`) signs"). -/
def visualCount (signs : List SignToken) : Nat :=
  (signs.filter (fun s => s.type != "space")).length

/-- Modelled from the spec: the Sign Resolver (backend, not part of the
frontend sources) inserts one `Space` token between word/letter groups
"except at sequence start/end", and "consecutive `Space` tokens never occur"
(spec section 4.3).  The frontend therefore only ever receives sign sequences
whose first and last entries are visual.  Only the boundary part of the
guarantee is needed below. -/
def WfSigns (signs : List SignToken) : Prop :=
  signs ≠ [] → (spaceAt signs 0 = false ∧ spaceAt signs (signs.length - 1) = false)

instance (signs : List SignToken) : Decidable (WfSigns signs) := by
  unfold WfSigns; infer_instance

/-- The `play` callback (line 22): `setIsPlaying(true)`. -/
def play (st : PlaybackState) : PlaybackState :=
  { st with isPlaying := true }

/-- The `pause` callback (lines 24-27): `setIsPlaying(false)`; its
`clearInterval` half lives in the timed machine (`stepFn`). -/
def pause (st : PlaybackState) : PlaybackState :=
  { st with isPlaying := false }

/-- The `goToSign` callback (line 29): `setCurrentIndex(index)`, verbatim,
with no clamping and no `Space` skipping. -/
def goToSign (st : PlaybackState) (index : Nat) : PlaybackState :=
  { st with currentIndex := index }

/-- The forward scan shared by `nextSign` (line 35) and the interval callback
(line 60): `while (next < signs.length && signs[next].type === 'space')
next++`.  The loop is embedded with an explicit fuel that bounds the number of
remaining iterations; `skipFwd` supplies enough fuel for the whole scan, so
the fuel never runs out before the loop condition fails. -/
def skipFwdAux (signs : List SignToken) : Nat → Nat → Nat
  | next, 0 => next
  | next, fuel + 1 =>
    if next < signs.length ∧ spaceAt signs next = true then skipFwdAux signs (next + 1) fuel
    else next

/-- The forward space-skipping scan starting at `next` (lines 34-35, 59-60). -/
def skipFwd (signs : List SignToken) (next : Nat) : Nat :=
  skipFwdAux signs next (signs.length - next)

/-- The `nextSign` callback (lines 31-38).  In JS the first guard is
`prev >= signs.length - 1`, which on an empty sequence compares against `-1`
and is always true; with truncated `Nat` subtraction `signs.length - 1 = 0`
on an empty sequence, so the guard is likewise always true there. -/
def nextSign (st : PlaybackState) : PlaybackState :=
  if st.currentIndex ≥ st.signs.length - 1 then
    { st with isPlaying := false }
  else
    let next := skipFwd st.signs (st.currentIndex + 1)
    if next ≥ st.signs.length then st
    else { st with currentIndex := next }

/-- The backward scan of `prevSign` (line 44):
`while (next > 0 && signs[next].type === 'space') next--`. -/
def skipBwd (signs : List SignToken) : Nat → Nat
  | 0 => 0
  | next + 1 =>
    if spaceAt signs (next + 1) = true then skipBwd signs next
    else next + 1

/-- The `prevSign` callback (lines 40-47): `if (prev <= 0) return 0`, then the
backward scan from `prev - 1`. -/
def prevSign (st : PlaybackState) : PlaybackState :=
  if st.currentIndex ≤ 0 then { st with currentIndex := 0 }
  else { st with currentIndex := skipBwd st.signs (st.currentIndex - 1) }

/-- The body of the interval callback (lines 57-63): scan forward from
`prev + 1`; at end of sequence `setIsPlaying(false)` and keep the index
(the `clearInterval` half lives in the timed machine), otherwise move to the
found index. -/
def tickUpdate (st : PlaybackState) : PlaybackState :=
  let next := skipFwd st.signs (st.currentIndex + 1)
  if next ≥ st.signs.length then { st with isPlaying := false }
  else { st with currentIndex := next }

/-- The component state including the pending timers: `interval` is the
repeating timer created by the effect at lines 55-67 as a pair
(period, milliseconds until the next firing); `autoStart` is the remaining
delay of the one-shot `setTimeout(() => play(), 500)` of the load effect
(lines 70-75); `replayT` is the remaining delay of the
`setTimeout(() => play(), 300)` of `replay` (line 52). -/
structure TimedState where
  ps : PlaybackState
  interval : Option (Nat × Nat)
  autoStart : Option Nat
  replayT : Option Nat
deriving DecidableEq

/-- The observable events of the component: the seven user commands of the
player controls (lines 130-142), the arrival of a new result through the
`data` prop (lines 69-75), the firing of each pending timer, and the passage
of one millisecond. -/
inductive Event where
  | play
  | pause
  | next
  | prev
  | replay
  | seek (i : Nat)
  | setSpeed (ms : Nat)
  | load (signs : List SignToken)
  | fireAutoStart
  | fireReplay
  | fireTick
  | elapse
deriving DecidableEq

/-- One observable transition of the component.  Each case applies the
corresponding callback to the React state and then replays the timer effect
(lines 55-67), which re-runs exactly when one of its dependencies
`[isPlaying, speed, signs]` changed: its cleanup clears the current interval
and its body starts a fresh `setInterval(..., speed)` when
`isPlaying && signs.length > 0`.  React skips the re-render (and hence the
effect) when a state setter receives the current value, which is why `play`
on an already playing state and a timeout firing while playing leave the
interval untouched. -/
def stepFn (st : TimedState) : Event → TimedState
  | .play =>
    if st.ps.isPlaying then st
    else
      { st with
        ps := play st.ps
        interval :=
          if 0 < st.ps.signs.length then some (st.ps.speed, st.ps.speed) else none }
  | .pause =>
    { st with ps := pause st.ps, interval := none }
  | .next =>
    let ps := nextSign st.ps
    { st with
      ps := ps
      interval := if ps.isPlaying = st.ps.isPlaying then st.interval else none }
  | .prev =>
    { st with ps := prevSign st.ps }
  | .replay =>
    { st with
      ps := { pause st.ps with currentIndex := 0 }
      interval := none
      replayT := some 300 }
  | .seek i =>
    { st with ps := goToSign st.ps i }
  | .setSpeed ms =>
    { st with
      ps := { st.ps with speed := ms }
      interval :=
        if st.ps.isPlaying ∧ 0 < st.ps.signs.length then some (ms, ms) else none }
  | .load d =>
    { ps := { signs := d, currentIndex := 0, isPlaying := false, speed := st.ps.speed }
      interval := none
      autoStart := if 0 < d.length then some 500 else none
      replayT := st.replayT }
  | .fireAutoStart =>
    if st.ps.isPlaying then { st with autoStart := none }
    else
      { st with
        ps := play st.ps
        autoStart := none
        interval :=
          if 0 < st.ps.signs.length then some (st.ps.speed, st.ps.speed) else none }
  | .fireReplay =>
    if st.ps.isPlaying then { st with replayT := none }
    else
      { st with
        ps := play st.ps
        replayT := none
        interval :=
          if 0 < st.ps.signs.length then some (st.ps.speed, st.ps.speed) else none }
  | .fireTick =>
    match st.interval with
    | some (p, _) =>
      let ps := tickUpdate st.ps
      { st with
        ps := ps
        interval := if ps.isPlaying then some (p, p) else none }
    | none => st
  | .elapse =>
    { st with
      interval := st.interval.map (fun pr => (pr.1, pr.2 - 1))
      autoStart := st.autoStart.map (fun r => r - 1)
      replayT := st.replayT.map (fun r => r - 1) }

/-- When an event can occur.  `seek` is issued only by the timeline (lines
146-155), which renders `Space` entries as inert separators and attaches
`goToSign(idx)` only to the in-range, non-space chips; `setSpeed` only comes
from the select's `onChange` (lines 137-142), which fires only when the
selected value actually changes (and React skips the effect re-run on a
same-value state update); `load` only delivers backend results, which satisfy
the boundary guarantee `WfSigns`; a pending timer fires exactly when its
countdown has reached zero; everything else is always available. -/
def Enabled (st : TimedState) : Event → Prop
  | .seek i => i < st.ps.signs.length ∧ spaceAt st.ps.signs i = false
  | .setSpeed ms => ms ≠ st.ps.speed
  | .load d => WfSigns d
  | .fireAutoStart => st.autoStart = some 0
  | .fireReplay => st.replayT = some 0
  | .fireTick => st.interval.map Prod.snd = some 0
  | _ => True

instance (st : TimedState) (e : Event) : Decidable (Enabled st e) := by
  cases e <;> (unfold Enabled; infer_instance)

/-- The transition relation of the component: `st'` is the result of event `e`
fired in state `st`. -/
def step (st : TimedState) (e : Event) (st' : TimedState) : Prop :=
  Enabled st e ∧ st' = stepFn st e

/-- Iterated passage of `n` milliseconds. -/
def elapseN : Nat → TimedState → TimedState
  | 0, st => st
  | n + 1, st => elapseN n (stepFn st Event.elapse)

/-- The component as first mounted: `data` is `null` (Home.jsx line 6), so
`signs = []`, `currentIndex = 0`, `isPlaying = false`, `speed = 1000`
(lines 14-16, 19), and no timer is pending. -/
def startState : TimedState :=
  { ps := { signs := [], currentIndex := 0, isPlaying := false, speed := 1000 }
    interval := none
    autoStart := none
    replayT := none }

/-- The index half of the controller invariant of the spec (section 4.4):
`currentIndex` denotes a visual sign of the loaded sequence, or is the
initial `0` on an empty sequence. -/
def IndexOK (ps : PlaybackState) : Prop :=
  (ps.signs = [] ∧ ps.currentIndex = 0) ∨
  (ps.currentIndex < ps.signs.length ∧ spaceAt ps.signs ps.currentIndex = false)

instance (ps : PlaybackState) : Decidable (IndexOK ps) := by
  unfold IndexOK; infer_instance

/-- The full machine invariant: the loaded sequence satisfies the resolver's
boundary guarantee and the current index denotes a visual sign (or is `0` on
an empty sequence). -/
def MachineInv (st : TimedState) : Prop :=
  WfSigns st.ps.signs ∧ IndexOK st.ps

instance (st : TimedState) : Decidable (MachineInv st) := by
  unfold MachineInv; infer_instance

/-! ### Concrete inputs used by the closed theorems below -/

/-- A concrete word-level sign token. -/
def tokWord : SignToken :=
  { type := "word", label := "HELLO", original := "hello", image_url := some "/signs/HELLO.png" }

/-- A concrete word-boundary token (`imageRef` absent). -/
def tokSpace : SignToken :=
  { type := "space", label := "|", original := " ", image_url := none }

/-- A concrete letter-spelling sign token. -/
def tokLetter : SignToken :=
  { type := "letter", label := "A", original := "a", image_url := some "/signs/A.png" }

/-- A single-word playback state, paused at its only sign. -/
def stOne : PlaybackState :=
  { signs := [tokWord], currentIndex := 0, isPlaying := false, speed := 1000 }

/-- A word-space-letter sequence, playing at the first sign. -/
def stWSL : PlaybackState :=
  { signs := [tokWord, tokSpace, tokLetter], currentIndex := 0, isPlaying := true, speed := 1000 }

/-- A word-space-letter sequence, playing at the last sign. -/
def stWSL2 : PlaybackState :=
  { signs := [tokWord, tokSpace, tokLetter], currentIndex := 2, isPlaying := true, speed := 1000 }

/-- A sequence with a trailing space, used to show `seek` lands on a `Space`
entry when asked to. -/
def stWS : PlaybackState :=
  { signs := [tokWord, tokSpace], currentIndex := 0, isPlaying := false, speed := 1000 }

/-- A playing component whose repeating timer has 100 ms left of its 1000 ms
period: an in-flight interval. -/
def stInFlight : TimedState :=
  { ps := { signs := [tokWord], currentIndex := 0, isPlaying := true, speed := 1000 }
    interval := some (1000, 100)
    autoStart := none
    replayT := none }

/-- The component right after a one-word result arrives: paused at index 0
with the 500 ms auto-start timeout pending. -/
def loadedOne : TimedState := stepFn startState (Event.load [tokWord])

/-- The user presses the toggle (showing Play) during the auto-start window. -/
def playingDuringAutoStart : TimedState := stepFn loadedOne Event.play

/-- The user presses the toggle again (now showing Pause), still inside the
auto-start window: an explicit cancellation event. -/
def pausedDuringAutoStart : TimedState := stepFn playingDuringAutoStart Event.pause

/-- The paused component 500 ms later: the auto-start timeout scheduled before
the pause is now due. -/
def afterAutoStartDelay : TimedState := elapseN 500 pausedDuringAutoStart

/-! ### Elementary properties of the forward scan -/

theorem skipFwdAux_ge (signs : List SignToken) :
    ∀ fuel next, next ≤ skipFwdAux signs next fuel := by
  intro fuel
  induction fuel with
  | zero => intro next; exact Nat.le_refl next
  | succ fuel ih =>
    intro next
    simp only [skipFwdAux]
    split
    · exact Nat.le_trans (Nat.le_succ next) (ih (next + 1))
    · exact Nat.le_refl next

theorem skipFwd_ge (signs : List SignToken) (next : Nat) : next ≤ skipFwd signs next :=
  skipFwdAux_ge signs _ next

theorem skipFwdAux_nonspace (signs : List SignToken) :
    ∀ fuel next, signs.length - next ≤ fuel →
      skipFwdAux signs next fuel < signs.length →
      spaceAt signs (skipFwdAux signs next fuel) = false := by
  intro fuel
  induction fuel with
  | zero =>
    intro next hfuel hlt
    simp only [skipFwdAux] at hlt
    exact absurd hlt (by omega)
  | succ fuel ih =>
    intro next hfuel hlt
    simp only [skipFwdAux] at hlt ⊢
    by_cases h : next < signs.length ∧ spaceAt signs next = true
    · obtain ⟨h1, h2⟩ := h
      rw [if_pos ⟨h1, h2⟩] at hlt ⊢
      exact ih (next + 1) (by omega) hlt
    · rw [if_neg h] at hlt ⊢
      cases hb : spaceAt signs next with
      | false => rfl
      | true => exact absurd ⟨hlt, hb⟩ h

theorem skipFwd_nonspace (signs : List SignToken) (next : Nat)
    (h : skipFwd signs next < signs.length) :
    spaceAt signs (skipFwd signs next) = false :=
  skipFwdAux_nonspace signs (signs.length - next) next (Nat.le_refl _) h

theorem skipFwdAux_lt (signs : List SignToken)
    (hlast : spaceAt signs (signs.length - 1) = false) :
    ∀ fuel next, next < signs.length → skipFwdAux signs next fuel < signs.length := by
  intro fuel
  induction fuel with
  | zero => intro next hn; simpa [skipFwdAux] using hn
  | succ fuel ih =>
    intro next hn
    simp only [skipFwdAux]
    by_cases h : next < signs.length ∧ spaceAt signs next = true
    · rw [if_pos h]
      apply ih
      rcases Nat.lt_or_ge (next + 1) signs.length with h' | h'
      · exact h'
      · exfalso
        have he : next = signs.length - 1 := by omega
        rw [he] at h
        rw [hlast] at h
        exact Bool.false_ne_true h.2
    · rw [if_neg h]
      exact hn

theorem skipFwd_lt (signs : List SignToken)
    (hlast : spaceAt signs (signs.length - 1) = false)
    (next : Nat) (hn : next < signs.length) :
    skipFwd signs next < signs.length :=
  skipFwdAux_lt signs hlast _ next hn

theorem skipFwdAux_scan (signs : List SignToken) :
    ∀ fuel next m, next ≤ m → m < skipFwdAux signs next fuel →
      spaceAt signs m = true := by
  intro fuel
  induction fuel with
  | zero =>
    intro next m h1 h2
    simp only [skipFwdAux] at h2
    exact absurd h2 (by omega)
  | succ fuel ih =>
    intro next m h1 h2
    simp only [skipFwdAux] at h2
    by_cases h : next < signs.length ∧ spaceAt signs next = true
    · rw [if_pos h] at h2
      rcases Nat.eq_or_lt_of_le h1 with rfl | h1'
      · exact h.2
      · exact ih (next + 1) m h1' h2
    · rw [if_neg h] at h2
      exact absurd h2 (by omega)

theorem skipFwd_scan (signs : List SignToken) (next m : Nat)
    (h1 : next ≤ m) (h2 : m < skipFwd signs next) : spaceAt signs m = true :=
  skipFwdAux_scan signs _ next m h1 h2

theorem skipFwd_out (signs : List SignToken) (next : Nat)
    (h : signs.length ≤ next) : skipFwd signs next = next := by
  unfold skipFwd
  have hz : signs.length - next = 0 := by omega
  rw [hz]
  rfl

/-! ### Elementary properties of the backward scan -/

theorem skipBwd_le (signs : List SignToken) : ∀ n, skipBwd signs n ≤ n := by
  intro n
  induction n with
  | zero => exact Nat.le_refl 0
  | succ n ih =>
    simp only [skipBwd]
    by_cases hb : spaceAt signs (n + 1) = true
    · rw [if_pos hb]
      exact Nat.le_trans ih (Nat.le_succ n)
    · rw [if_neg hb]

theorem skipBwd_exit (signs : List SignToken) :
    ∀ n, skipBwd signs n = 0 ∨ spaceAt signs (skipBwd signs n) = false := by
  intro n
  induction n with
  | zero => exact Or.inl rfl
  | succ n ih =>
    simp only [skipBwd]
    by_cases hb : spaceAt signs (n + 1) = true
    · rw [if_pos hb]
      exact ih
    · rw [if_neg hb]
      right
      cases hbv : spaceAt signs (n + 1) with
      | false => rfl
      | true => exact absurd hbv hb

theorem skipBwd_scan (signs : List SignToken) :
    ∀ n m, skipBwd signs n < m → m ≤ n → spaceAt signs m = true := by
  intro n
  induction n with
  | zero =>
    intro m h1 h2
    exact absurd h1 (by omega)
  | succ n ih =>
    intro m h1 h2
    simp only [skipBwd] at h1
    by_cases hb : spaceAt signs (n + 1) = true
    · rw [if_pos hb] at h1
      rcases Nat.eq_or_lt_of_le h2 with rfl | h2'
      · exact hb
      · exact ih m h1 (by omega)
    · rw [if_neg hb] at h1
      exact absurd h1 (by omega)

/-! ### Frame facts about the pure commands -/

theorem nextSign_signs (st : PlaybackState) : (nextSign st).signs = st.signs := by
  simp only [nextSign]
  split
  · rfl
  · split <;> rfl

theorem nextSign_speed (st : PlaybackState) : (nextSign st).speed = st.speed := by
  simp only [nextSign]
  split
  · rfl
  · split <;> rfl

theorem prevSign_signs (st : PlaybackState) : (prevSign st).signs = st.signs := by
  simp only [prevSign]
  split <;> rfl

theorem prevSign_speed (st : PlaybackState) : (prevSign st).speed = st.speed := by
  simp only [prevSign]
  split <;> rfl

theorem prevSign_isPlaying (st : PlaybackState) : (prevSign st).isPlaying = st.isPlaying := by
  simp only [prevSign]
  split <;> rfl

theorem tickUpdate_signs (st : PlaybackState) : (tickUpdate st).signs = st.signs := by
  simp only [tickUpdate]
  split <;> rfl

theorem tickUpdate_speed (st : PlaybackState) : (tickUpdate st).speed = st.speed := by
  simp only [tickUpdate]
  split <;> rfl

/-! ### The tick callback computes the same transition as nextSign -/

theorem tick_eq_next (st : PlaybackState)
    (hlast : st.signs ≠ [] → spaceAt st.signs (st.signs.length - 1) = false) :
    tickUpdate st = nextSign st := by
  by_cases hend : st.currentIndex ≥ st.signs.length - 1
  · have hskip : skipFwd st.signs (st.currentIndex + 1) = st.currentIndex + 1 :=
      skipFwd_out _ _ (by omega)
    simp only [tickUpdate, nextSign, hskip]
    rw [if_pos hend, if_pos (by omega : st.currentIndex + 1 ≥ st.signs.length)]
  · have hne : st.signs ≠ [] := by
      intro h
      exact hend (by rw [h]; simp)
    have hi1 : st.currentIndex + 1 < st.signs.length := by omega
    have hlt := skipFwd_lt st.signs (hlast hne) (st.currentIndex + 1) hi1
    have hge : ¬ skipFwd st.signs (st.currentIndex + 1) ≥ st.signs.length := by omega
    simp only [tickUpdate, nextSign]
    rw [if_neg hend, if_neg hge, if_neg hge]

/-! ### The index invariant is preserved by the index-moving commands -/

theorem IndexOK_nextSign (st : PlaybackState) (hwf : WfSigns st.signs) (h : IndexOK st) :
    IndexOK (nextSign st) := by
  rcases h with ⟨hnil, hzero⟩ | ⟨hlt, hsp⟩
  · have heq : nextSign st = { st with isPlaying := false } := by
      simp only [nextSign]
      rw [if_pos (show st.currentIndex ≥ st.signs.length - 1 by rw [hnil]; simp)]
    rw [heq]
    exact Or.inl ⟨hnil, hzero⟩
  · by_cases hend : st.currentIndex ≥ st.signs.length - 1
    · have heq : nextSign st = { st with isPlaying := false } := by
        simp only [nextSign]
        rw [if_pos hend]
      rw [heq]
      exact Or.inr ⟨hlt, hsp⟩
    · have hne : st.signs ≠ [] := by
        intro hh
        rw [hh] at hlt
        simp at hlt
      have hi1 : st.currentIndex + 1 < st.signs.length := by omega
      have hlt2 := skipFwd_lt st.signs ((hwf hne).2) (st.currentIndex + 1) hi1
      have heq : nextSign st = { st with currentIndex := skipFwd st.signs (st.currentIndex + 1) } := by
        simp only [nextSign]
        rw [if_neg hend,
          if_neg (by omega : ¬ skipFwd st.signs (st.currentIndex + 1) ≥ st.signs.length)]
      rw [heq]
      exact Or.inr ⟨hlt2, skipFwd_nonspace st.signs (st.currentIndex + 1) hlt2⟩

theorem IndexOK_prevSign (st : PlaybackState) (hwf : WfSigns st.signs) (h : IndexOK st) :
    IndexOK (prevSign st) := by
  rcases h with ⟨hnil, hzero⟩ | ⟨hlt, hsp⟩
  · have heq : prevSign st = { st with currentIndex := 0 } := by
      simp only [prevSign]
      rw [if_pos (show st.currentIndex ≤ 0 by omega)]
    rw [heq]
    exact Or.inl ⟨hnil, rfl⟩
  · have hne : st.signs ≠ [] := by
      intro hh
      rw [hh] at hlt
      simp at hlt
    by_cases hz : st.currentIndex ≤ 0
    · have heq : prevSign st = { st with currentIndex := 0 } := by
        simp only [prevSign]
        rw [if_pos hz]
      rw [heq]
      exact Or.inr ⟨(by omega : (0 : Nat) < st.signs.length), (hwf hne).1⟩
    · have heq : prevSign st = { st with currentIndex := skipBwd st.signs (st.currentIndex - 1) } := by
        simp only [prevSign]
        rw [if_neg hz]
      rw [heq]
      have hle := skipBwd_le st.signs (st.currentIndex - 1)
      rcases skipBwd_exit st.signs (st.currentIndex - 1) with h0 | hns
      · rw [h0]
        exact Or.inr ⟨(by omega : (0 : Nat) < st.signs.length), (hwf hne).1⟩
      · exact Or.inr
          ⟨(by omega : skipBwd st.signs (st.currentIndex - 1) < st.signs.length), hns⟩

/-! ### C1: the controller never parks the index on a Space token -/

/-- C1: Playback-controller invariant.  At every observable point — after the
mount and after any completed command, timer firing, result load or passage
of time — `currentIndex` denotes a visual (word/letter) sign of the loaded
sign sequence, or is the initial 0 when the sequence is empty; no operation
of the controller (play, pause, next, prev, replay, seek, setSpeed, timer
tick, new-result load) leaves `currentIndex` parked on a `Space` token.
Stated as: the invariant holds in the mount state and is preserved by every
enabled transition of the machine. -/
theorem playback_index_invariant :
    MachineInv startState ∧
    ∀ st e st', MachineInv st → step st e st' → MachineInv st' := by
  constructor
  · decide
  · rintro st e st' ⟨hwf, hidx⟩ ⟨hen, rfl⟩
    cases e with
    | play =>
      simp only [stepFn]
      split
      · exact ⟨hwf, hidx⟩
      · exact ⟨hwf, hidx⟩
    | pause => exact ⟨hwf, hidx⟩
    | next =>
      refine ⟨?_, IndexOK_nextSign st.ps hwf hidx⟩
      show WfSigns (nextSign st.ps).signs
      rw [nextSign_signs]
      exact hwf
    | prev =>
      refine ⟨?_, IndexOK_prevSign st.ps hwf hidx⟩
      show WfSigns (prevSign st.ps).signs
      rw [prevSign_signs]
      exact hwf
    | replay =>
      refine ⟨hwf, ?_⟩
      rcases hidx with ⟨hnil, _⟩ | ⟨hlt, _⟩
      · exact Or.inl ⟨hnil, rfl⟩
      · exact Or.inr ⟨(by omega : (0 : Nat) < st.ps.signs.length),
          (hwf (by intro hh; rw [hh] at hlt; simp at hlt)).1⟩
    | seek i => exact ⟨hwf, Or.inr ⟨hen.1, hen.2⟩⟩
    | setSpeed ms => exact ⟨hwf, hidx⟩
    | load d =>
      refine ⟨hen, ?_⟩
      by_cases hd : d = []
      · exact Or.inl ⟨hd, rfl⟩
      · exact Or.inr ⟨List.length_pos.mpr hd, ((hen : WfSigns d) hd).1⟩
    | fireAutoStart =>
      simp only [stepFn]
      split
      · exact ⟨hwf, hidx⟩
      · exact ⟨hwf, hidx⟩
    | fireReplay =>
      simp only [stepFn]
      split
      · exact ⟨hwf, hidx⟩
      · exact ⟨hwf, hidx⟩
    | fireTick =>
      simp only [stepFn]
      split
      · refine ⟨?_, ?_⟩
        · show WfSigns (tickUpdate st.ps).signs
          rw [tickUpdate_signs]
          exact hwf
        · have hh := IndexOK_nextSign st.ps hwf hidx
          rw [← tick_eq_next st.ps (fun hne => (hwf hne).2)] at hh
          exact hh
      · exact ⟨hwf, hidx⟩
    | elapse => exact ⟨hwf, hidx⟩

/-- Witness for C1: the invariant theorem applied to a concrete transition,
the arrival of a one-word result in the mount state. -/
theorem playback_index_invariant_witness :
    MachineInv startState ∧
    step startState (Event.load [tokWord]) loadedOne ∧
    MachineInv loadedOne :=
  ⟨playback_index_invariant.1,
    ⟨by decide, rfl⟩,
    playback_index_invariant.2 startState (Event.load [tokWord]) loadedOne
      playback_index_invariant.1 ⟨by decide, rfl⟩⟩

/-! ### C2: a timer tick is the same transition as the next command -/

/-- C2: on every sign sequence without a trailing `Space` (the shape the Sign
Resolver guarantees for every sequence the controller receives) and every
current index, a timer tick performs exactly the `nextSign` transition — the
whole resulting state, hence in particular the (currentIndex, isPlaying)
pair, coincides — and reaching end-of-sequence switches the machine from
Playing to Paused. -/
theorem tick_transition_equals_next (st : PlaybackState)
    (hlast : st.signs ≠ [] → spaceAt st.signs (st.signs.length - 1) = false) :
    tickUpdate st = nextSign st ∧
    (st.signs.length - 1 ≤ st.currentIndex → (tickUpdate st).isPlaying = false) := by
  refine ⟨tick_eq_next st hlast, ?_⟩
  intro hend
  have hskip : skipFwd st.signs (st.currentIndex + 1) = st.currentIndex + 1 :=
    skipFwd_out _ _ (by omega)
  simp only [tickUpdate, hskip]
  rw [if_pos (by omega : st.currentIndex + 1 ≥ st.signs.length)]

/-- Witness for C2 at a concrete playing state sitting on the last sign of a
word-space-letter sequence. -/
theorem tick_transition_equals_next_witness :
    (stWSL2.signs ≠ [] → spaceAt stWSL2.signs (stWSL2.signs.length - 1) = false) ∧
    tickUpdate stWSL2 = nextSign stWSL2 ∧
    (stWSL2.signs.length - 1 ≤ stWSL2.currentIndex → (tickUpdate stWSL2).isPlaying = false) :=
  ⟨by decide, (tick_transition_equals_next stWSL2 (by decide)).1,
    (tick_transition_equals_next stWSL2 (by decide)).2⟩

/-! ### C3: loading a new result resets the state and schedules auto-start -/

/-- C3: for every load of a new result, the controller is reset to index 0
and Paused, any running interval is cancelled, and the one-shot 500 ms
auto-start is scheduled exactly when the result has a visual (non-Space)
sign; a result with zero visual signs schedules no auto-start. -/
theorem load_resets_then_schedules_autostart (st : TimedState) (d : List SignToken)
    (st' : TimedState) (h : step st (Event.load d) st') :
    st'.ps.currentIndex = 0 ∧
    st'.ps.isPlaying = false ∧
    st'.interval = none ∧
    (st'.autoStart = some 500 ↔ 0 < visualCount d) ∧
    (visualCount d = 0 → st'.autoStart = none) := by
  obtain ⟨hen, rfl⟩ := h
  have hv : 0 < visualCount d ↔ 0 < d.length := by
    constructor
    · intro hvc
      cases d with
      | nil => simp [visualCount] at hvc
      | cons x t => simp
    · intro hlen
      cases d with
      | nil => simp at hlen
      | cons x t =>
        have hwfd : WfSigns (x :: t) := hen
        have hx2 : (x.type == "space") = false := (hwfd (by simp)).1
        have hfx : (x.type != "space") = true := by
          show (!(x.type == "space")) = true
          rw [hx2]
          rfl
        simp only [visualCount, List.filter_cons, hfx]
        simp
  have hA : (stepFn st (Event.load d)).autoStart =
      if 0 < d.length then some 500 else none := rfl
  refine ⟨rfl, rfl, rfl, ?_, ?_⟩
  · rw [hA]
    by_cases hlen : 0 < d.length
    · rw [if_pos hlen]
      exact ⟨fun _ => hv.mpr hlen, fun _ => rfl⟩
    · rw [if_neg hlen]
      constructor
      · intro hcontra
        exact absurd hcontra (by simp)
      · intro hvc
        exact absurd (hv.mp hvc) hlen
  · intro h0
    rw [hA]
    rw [if_neg (fun hlen => absurd (hv.mpr hlen) (by omega))]

/-- Witness for C3: the reset-and-schedule theorem applied to the arrival of
a concrete one-word result in the mount state. -/
theorem load_resets_then_schedules_autostart_witness :
    step startState (Event.load [tokWord]) loadedOne ∧
    loadedOne.ps.currentIndex = 0 ∧
    loadedOne.ps.isPlaying = false ∧
    loadedOne.interval = none ∧
    loadedOne.autoStart = some 500 :=
  ⟨⟨by decide, rfl⟩,
    (load_resets_then_schedules_autostart startState [tokWord] loadedOne ⟨by decide, rfl⟩).1,
    (load_resets_then_schedules_autostart startState [tokWord] loadedOne ⟨by decide, rfl⟩).2.1,
    (load_resets_then_schedules_autostart startState [tokWord] loadedOne ⟨by decide, rfl⟩).2.2.1,
    (load_resets_then_schedules_autostart startState [tokWord] loadedOne
      ⟨by decide, rfl⟩).2.2.2.1.mpr (by decide)⟩

/-! ### C4: seek does not clamp; next never leaves the valid range -/

/-- C4 is refuted on its seek half: `goToSign` performs no clamping.  On the
one-sign sequence of `stOne`, seeking index 5 stores 5, which is not within
the valid index range [0, 0]. -/
theorem seek_beyond_bounds_not_clamped :
    (goToSign stOne 5).currentIndex = 5 ∧
    ¬ (goToSign stOne 5).currentIndex < stOne.signs.length := by
  decide

/-- C4 amended: both commands are total pure state updates (they never raise);
`next` keeps an in-range index in range, clamping at the end of the sequence;
`seek`, however, stores exactly the requested index even when it is out of
range, instead of clamping it. -/
theorem seek_next_never_fail_amended (st : PlaybackState) (i : Nat) :
    (goToSign st i).currentIndex = i ∧
    (st.currentIndex < st.signs.length → (nextSign st).currentIndex < st.signs.length) := by
  refine ⟨rfl, ?_⟩
  intro hidx
  simp only [nextSign]
  split
  · exact hidx
  · split
    · exact hidx
    · rename_i h2
      show skipFwd st.signs (st.currentIndex + 1) < st.signs.length
      omega

/-- Witness for C4 (amended) at the concrete one-word state. -/
theorem seek_next_never_fail_amended_witness :
    (goToSign stOne 0).currentIndex = 0 ∧
    (nextSign stOne).currentIndex < stOne.signs.length :=
  ⟨(seek_next_never_fail_amended stOne 0).1,
    (seek_next_never_fail_amended stOne 0).2 (by decide)⟩

/-! ### C5: seek lands exactly where requested -/

/-- C5: for every sign sequence and every requested index, `goToSign` sets
`currentIndex` to exactly the requested index and changes nothing else — no
`Space` skipping; the concrete conjuncts exhibit a seek that lands on a
`Space` entry (index 1 of `stWS`) exactly as requested. -/
theorem seek_lands_exactly_where_requested :
    (∀ (st : PlaybackState) (i : Nat), goToSign st i = { st with currentIndex := i }) ∧
    spaceAt stWS.signs 1 = true ∧ (goToSign stWS 1).currentIndex = 1 :=
  ⟨fun _ _ => rfl, by decide, rfl⟩

/-! ### C6: next advances to the nearest later visual sign -/

/-- C6: on every in-range state over a resolver-shaped sequence (no trailing
`Space`), `nextSign` advances `currentIndex` to the smallest index greater
than the current one whose sign is not `Space`; if no such index exists the
current index is already the last one, it stays unchanged, and the machine
switches `isPlaying` off (Playing to Paused). -/
theorem next_advances_to_nearest_visual (st : PlaybackState)
    (hidx : st.currentIndex < st.signs.length)
    (hlast : spaceAt st.signs (st.signs.length - 1) = false) :
    (∃ j, st.currentIndex < j ∧ j < st.signs.length ∧ spaceAt st.signs j = false ∧
        (∀ m, st.currentIndex < m → m < j → spaceAt st.signs m = true) ∧
        nextSign st = { st with currentIndex := j }) ∨
    ((∀ m, st.currentIndex < m → m < st.signs.length → spaceAt st.signs m = true) ∧
      st.currentIndex = st.signs.length - 1 ∧
      nextSign st = { st with isPlaying := false }) := by
  by_cases hend : st.currentIndex ≥ st.signs.length - 1
  · right
    refine ⟨?_, by omega, ?_⟩
    · intro m h1 h2
      exact absurd h2 (by omega)
    · simp only [nextSign]
      rw [if_pos hend]
  · left
    have hi1 : st.currentIndex + 1 < st.signs.length := by omega
    have hlt := skipFwd_lt st.signs hlast (st.currentIndex + 1) hi1
    have hge : ¬ skipFwd st.signs (st.currentIndex + 1) ≥ st.signs.length := by omega
    refine ⟨skipFwd st.signs (st.currentIndex + 1),
      by have := skipFwd_ge st.signs (st.currentIndex + 1); omega,
      hlt,
      skipFwd_nonspace st.signs (st.currentIndex + 1) hlt,
      ?_, ?_⟩
    · intro m h1 h2
      exact skipFwd_scan st.signs (st.currentIndex + 1) m (by omega) h2
    · simp only [nextSign]
      rw [if_neg hend, if_neg hge]

/-- Witness for C6 at a concrete playing state: from index 0 of
word-space-letter, `next` skips the space and lands on index 2. -/
theorem next_advances_to_nearest_visual_witness :
    stWSL.currentIndex < stWSL.signs.length ∧
    spaceAt stWSL.signs (stWSL.signs.length - 1) = false ∧
    ((∃ j, stWSL.currentIndex < j ∧ j < stWSL.signs.length ∧
        spaceAt stWSL.signs j = false ∧
        (∀ m, stWSL.currentIndex < m → m < j → spaceAt stWSL.signs m = true) ∧
        nextSign stWSL = { stWSL with currentIndex := j }) ∨
      ((∀ m, stWSL.currentIndex < m → m < stWSL.signs.length →
          spaceAt stWSL.signs m = true) ∧
        stWSL.currentIndex = stWSL.signs.length - 1 ∧
        nextSign stWSL = { stWSL with isPlaying := false })) :=
  ⟨by decide, by decide,
    next_advances_to_nearest_visual stWSL (by decide) (by decide)⟩

/-! ### C7: prev retreats to the nearest earlier visual sign -/

/-- C7: on every state whose index is within the JS-safe range, `prevSign`
retreats `currentIndex` to the largest index smaller than the current one
whose sign is not `Space`, clamped at 0 when no such index exists; `prev` at
index 0 is a no-op; and `prevSign` changes neither `isPlaying` nor the
sequence nor the speed. -/
theorem prev_retreats_to_nearest_visual (st : PlaybackState)
    (hidx : st.currentIndex ≤ st.signs.length) :
    (prevSign st).isPlaying = st.isPlaying ∧
    (prevSign st).signs = st.signs ∧
    (prevSign st).speed = st.speed ∧
    (st.currentIndex = 0 → (prevSign st).currentIndex = 0) ∧
    ((∃ j, j < st.currentIndex ∧ spaceAt st.signs j = false ∧
        (∀ m, j < m → m < st.currentIndex → spaceAt st.signs m = true) ∧
        (prevSign st).currentIndex = j) ∨
      ((∀ m, m < st.currentIndex → spaceAt st.signs m = true) ∧
        (prevSign st).currentIndex = 0)) := by
  refine ⟨prevSign_isPlaying st, prevSign_signs st, prevSign_speed st, ?_, ?_⟩
  · intro h0
    simp only [prevSign]
    rw [if_pos (by omega)]
  · by_cases hz : st.currentIndex ≤ 0
    · right
      refine ⟨?_, ?_⟩
      · intro m hm
        exact absurd hm (by omega)
      · simp only [prevSign]
        rw [if_pos hz]
    · have heq : (prevSign st).currentIndex = skipBwd st.signs (st.currentIndex - 1) := by
        simp only [prevSign]
        rw [if_neg hz]
      have hle := skipBwd_le st.signs (st.currentIndex - 1)
      rcases skipBwd_exit st.signs (st.currentIndex - 1) with h0 | hns
      · by_cases hsp0 : spaceAt st.signs 0 = true
        · right
          refine ⟨?_, by rw [heq, h0]⟩
          intro m hm
          rcases Nat.eq_zero_or_pos m with rfl | hmpos
          · exact hsp0
          · exact skipBwd_scan st.signs (st.currentIndex - 1) m (by omega) (by omega)
        · left
          refine ⟨0, by omega, ?_, ?_, by rw [heq, h0]⟩
          · cases hbv : spaceAt st.signs 0 with
            | false => rfl
            | true => exact absurd hbv hsp0
          · intro m hm1 hm2
            exact skipBwd_scan st.signs (st.currentIndex - 1) m (by omega) (by omega)
      · left
        refine ⟨skipBwd st.signs (st.currentIndex - 1), by omega, hns, ?_, heq⟩
        intro m hm1 hm2
        exact skipBwd_scan st.signs (st.currentIndex - 1) m hm1 (by omega)

/-- Witness for C7 at a concrete state: from the last index of
word-space-letter, `prev` skips the space and lands on index 0, leaving
`isPlaying` untouched. -/
theorem prev_retreats_to_nearest_visual_witness :
    stWSL2.currentIndex ≤ stWSL2.signs.length ∧
    (prevSign stWSL2).isPlaying = stWSL2.isPlaying ∧
    (prevSign stWSL2).currentIndex = 0 :=
  ⟨by decide, (prev_retreats_to_nearest_visual stWSL2 (by decide)).1, by decide⟩

/-! ### C8: what setSpeed changes -/

/-- C8 is refuted on its in-flight clause: a legal speed change while Playing
does not leave the pending tick on its old schedule.  On `stInFlight` (period
1000 ms, 100 ms left until the next tick) the speed selector's change to
2000 ms re-runs the timer effect, which clears the in-flight interval and
starts a fresh full one — afterwards the next tick is 2000 ms away, not the
100 ms the old schedule promised. -/
theorem setSpeed_replaces_inflight_interval :
    Enabled stInFlight (Event.setSpeed 2000) ∧
    (stepFn stInFlight (Event.setSpeed 2000)).interval = some (2000, 2000) ∧
    ¬ (stepFn stInFlight (Event.setSpeed 2000)).interval = stInFlight.interval := by
  decide

/-- C8 amended: `setSpeed` updates `speed` and leaves `currentIndex`,
`isPlaying`, the sign sequence and the pending one-shot timeouts unchanged;
while Playing on a nonempty sequence the repeating timer is restarted with
the new period — the next tick fires one full new-speed interval after the
change, cancelling the in-flight old-speed wait — and while Paused no
interval exists. -/
theorem setSpeed_updates_only_speed (st : TimedState) (ms : Nat) (st' : TimedState)
    (h : step st (Event.setSpeed ms) st') :
    st'.ps.currentIndex = st.ps.currentIndex ∧
    st'.ps.isPlaying = st.ps.isPlaying ∧
    st'.ps.signs = st.ps.signs ∧
    st'.ps.speed = ms ∧
    st'.autoStart = st.autoStart ∧
    st'.replayT = st.replayT ∧
    (st.ps.isPlaying = true → 0 < st.ps.signs.length → st'.interval = some (ms, ms)) ∧
    (st.ps.isPlaying = false → st'.interval = none) := by
  obtain ⟨hen, rfl⟩ := h
  refine ⟨rfl, rfl, rfl, rfl, rfl, rfl, ?_, ?_⟩
  · intro hp hlen
    show (if st.ps.isPlaying = true ∧ 0 < st.ps.signs.length
        then some (ms, ms) else (none : Option (Nat × Nat))) = some (ms, ms)
    rw [if_pos ⟨hp, hlen⟩]
  · intro hp
    have hc : ¬ (st.ps.isPlaying = true ∧ 0 < st.ps.signs.length) := by
      intro hc
      rw [hp] at hc
      exact Bool.false_ne_true hc.1
    show (if st.ps.isPlaying = true ∧ 0 < st.ps.signs.length
        then some (ms, ms) else (none : Option (Nat × Nat))) = none
    rw [if_neg hc]

/-- Witness for C8 (amended) at the concrete in-flight state, slowing down to
a 400 ms period. -/
theorem setSpeed_updates_only_speed_witness :
    step stInFlight (Event.setSpeed 400) (stepFn stInFlight (Event.setSpeed 400)) ∧
    (stepFn stInFlight (Event.setSpeed 400)).ps.currentIndex = stInFlight.ps.currentIndex ∧
    (stepFn stInFlight (Event.setSpeed 400)).interval = some (400, 400) :=
  ⟨⟨by decide, rfl⟩,
    (setSpeed_updates_only_speed stInFlight 400 _ ⟨by decide, rfl⟩).1,
    (setSpeed_updates_only_speed stInFlight 400 _
      ⟨by decide, rfl⟩).2.2.2.2.2.2.1 (by decide) (by decide)⟩

/-! ### C9: a stale auto-start timeout survives an explicit pause -/

set_option maxRecDepth 8192 in
/-- C9 is violated by the code: the pending auto-start timeout is not
cancelled by `pause`.  Concretely: a one-word result is loaded (auto-start
scheduled 500 ms ahead), the user presses Play and then Pause inside that
window, and at the 500 ms mark the stale timeout — scheduled before the
explicit pause cancellation — fires and flips the paused controller back to
Playing.  A timer callback scheduled before a cancellation event thus
observes and mutates the superseded `PlaybackState`. -/
theorem stale_autostart_overrides_pause :
    Enabled startState (Event.load [tokWord]) ∧
    playingDuringAutoStart.ps.isPlaying = true ∧
    pausedDuringAutoStart.ps.isPlaying = false ∧
    pausedDuringAutoStart.autoStart = some 500 ∧
    Enabled afterAutoStartDelay Event.fireAutoStart ∧
    (stepFn afterAutoStartDelay Event.fireAutoStart).ps.isPlaying = true := by
  decide

/-! ### C10: every operation except setSpeed preserves the speed -/

/-- C10: the selected playback speed is preserved by every controller
transition other than a `setSpeed` command — in particular by loading a new
result, by `replay`, and by every timer firing. -/
theorem speed_preserved_by_all_other_ops (st : TimedState) (e : Event) (st' : TimedState)
    (h : step st e st') (hne : ∀ ms, e ≠ Event.setSpeed ms) :
    st'.ps.speed = st.ps.speed := by
  obtain ⟨hen, rfl⟩ := h
  cases e with
  | setSpeed ms => exact absurd rfl (hne ms)
  | play =>
    simp only [stepFn]
    split
    · rfl
    · rfl
  | pause => rfl
  | next => exact nextSign_speed st.ps
  | prev => exact prevSign_speed st.ps
  | replay => rfl
  | seek i => rfl
  | load d => rfl
  | fireAutoStart =>
    simp only [stepFn]
    split
    · rfl
    · rfl
  | fireReplay =>
    simp only [stepFn]
    split
    · rfl
    · rfl
  | fireTick =>
    simp only [stepFn]
    split
    · exact tickUpdate_speed st.ps
    · rfl
  | elapse => rfl

/-- Witness for C10: pressing Play right after a load keeps the 1000 ms
speed. -/
theorem speed_preserved_by_all_other_ops_witness :
    step loadedOne Event.play (stepFn loadedOne Event.play) ∧
    (stepFn loadedOne Event.play).ps.speed = loadedOne.ps.speed :=
  ⟨⟨by decide, rfl⟩,
    speed_preserved_by_all_other_ops loadedOne Event.play _ ⟨by decide, rfl⟩
      (fun ms h => nomatch h)⟩
